import Mathlib

/-!
Shallow embedding of `src/parsito/embedding/embedding.cpp` (the UDPipe/Parsito
word-embedding component).  C++ `float` arithmetic is modelled exactly over `ℚ`:
no claim in scope depends on rounding.  Rows of the flat weight matrix are
slices of width `dimension`; `std::vector` becomes `List`, the two hash maps
(`dictionary`, `decomposed_forms`) become insertion-ordered association lists
with insert-if-absent (`emplace`) semantics.  The unicode tables and UTF-8
codec (`unilib`, not among the given sources) are kept abstract, see
`UnicodeModel`; strings are handled at the code-point level, which is exactly
what `utf8::decode` iterates over.
-/

/-- Element-wise row addition; the C++ loops `w[i*d+j] += v[s*d+j]`. -/
def vecAdd (a b : List ℚ) : List ℚ := List.zipWith (· + ·) a b

/-- Element-wise row subtraction. -/
def vecSub (a b : List ℚ) : List ℚ := List.zipWith (· - ·) a b

/-- Multiply every entry of a row by a scalar; the C++ loop `w[j] *= c`. -/
def vecScale (c : ℚ) (a : List ℚ) : List ℚ := a.map (fun x => c * x)

/-- A zero row of width `d`; C++ `fill_n(…, d, 0.f)` / value-initialised floats. -/
def zeros (d : ℕ) : List ℚ := List.replicate d 0

/-- Row `i` of the flat weight matrix `w` with row width `d`: the `d` entries
starting at offset `i * d` (`weights.data() + id * dimension`). -/
def getRow (w : List ℚ) (d i : ℕ) : List ℚ := (w.drop (i * d)).take d

/-- Overwrite row `i` of the flat matrix `w` with `v` (an element-wise loop
`w[i*d+j] = v[j]` for `j < d`; faithful when `v.length = d`). -/
def setRow (w : List ℚ) (d i : ℕ) (v : List ℚ) : List ℚ :=
  w.take (i * d) ++ v ++ w.drop (i * d + d)

/-- `dictionary.emplace(word, dictionary.size())`: insert only when the key is
absent; the mapped id is the map's size at insertion time. -/
def emplaceDict (l : List (String × ℕ)) (w : String) : List (String × ℕ) :=
  match List.lookup w l with
  | some _ => l
  | none => l ++ [(w, l.length)]

/-- `decomposed_forms.emplace(word, v)`: insert-if-absent. -/
def emplaceForm (l : List (String × ℤ)) (w : String) (v : ℤ) : List (String × ℤ) :=
  match List.lookup w l with
  | some _ => l
  | none => l ++ [(w, v)]

/-- Modelled from the spec: the "unicode category/lowercase tables" of
`unilib/unicode.h` (an external collaborator, not among the given sources) are
abstracted into a classification/lowercasing capability.  `isLut` holds of
uppercase/titlecase letters (`unicode::Lut`), `isL` of letters (`unicode::L`),
`isN` of numbers (`unicode::N`); `lowercase` is `unicode::lowercase`.  Testing
the OR of the categories of several characters against a mask is the same as
testing whether some character's category meets the mask, which is how the
bitmask accumulation of lines 78–83 is rendered. -/
structure UnicodeModel where
  isLut : Char → Bool
  isL : Char → Bool
  isN : Char → Bool
  lowercase : Char → Char

/-- The state of `class embedding` (fields of `embedding.h` used by the given
source).  `weights` is the flat row-major matrix; `previous_weights` holds one
cache slot per row (length `dimension + 1`, last entry the validity flag) for
composed ids and `[]` for plain ids; `subforms` holds one constituent-id list
per row; `active_subforms` is the active set; `decomposed_forms` the word memo. -/
structure embedding where
  dimension : ℕ
  dictionary : List (String × ℕ)
  unknown_index : ℤ
  subform : Bool
  weights : List ℚ
  subforms : List (List ℕ)
  previous_weights : List (List ℚ)
  active_subforms : List ℕ
  decomposed_forms : List (String × ℤ)
deriving DecidableEq

/-- `embedding::unknown_word`. -/
def embedding.unknown_word (e : embedding) : ℤ := e.unknown_index

/-- The dictionary hits among the n-grams starting at code-point position `i`
of the marked form `cs`: the inner loop of lines 37–45 decodes one more code
point each round (`len = 0,1,2,3`) and looks the slice up only for `len ≥ 1`,
i.e. slices of 2, 3 and 4 code points, truncated at the end of the form. -/
def ngramHits (dict : List (String × ℕ)) (cs : List Char) (i : ℕ) : List ℕ :=
  [2, 3, 4].filterMap fun L =>
    if i + L ≤ cs.length then List.lookup (String.mk ((cs.drop i).take L)) dict else none

/-- All dictionary hits collected by the nested loops of lines 35–46: the outer
loop advances the start position one code point at a time over the whole marked
form. -/
def collectSubforms (dict : List (String × ℕ)) (cs : List Char) : List ℕ :=
  ((List.range cs.length).map (ngramHits dict cs)).flatten

/-- Lines 57–58: `sort` then `erase(unique(…))` — sort ascending and drop
adjacent duplicates. -/
def sortUnique (l : List ℕ) : List ℕ :=
  (List.insertionSort (· ≤ ·) l).destutter (· ≠ ·)

/-- Lines 72–115 of `embedding::lookup_word`: the verbatim dictionary probe
followed by the heuristic chain (lowercase-all-but-first, lowercase-all,
first-digit), used when subform mode is off. -/
def heuristicLookup (U : UnicodeModel) (dict : List (String × ℕ))
    (unknown_index : ℤ) (word : String) : ℤ :=
  match List.lookup word dict with
  | some i => (i : ℤ)
  | none =>
    match word.toList with
    | [] => unknown_index
    | c :: rest =>
      let firstLut := U.isLut c
      let otherLut := rest.any U.isLut
      let step2 := if firstLut && otherLut then
          List.lookup (String.mk (c :: rest.map U.lowercase)) dict else none
      match step2 with
      | some i => (i : ℤ)
      | none =>
        let step3 := if firstLut || otherLut then
            List.lookup (String.mk ((c :: rest).map U.lowercase)) dict else none
        match step3 with
        | some i => (i : ℤ)
        | none =>
          let step4 := if U.isN c && !(rest.any U.isL) then
              List.lookup (String.mk [c]) dict else none
          match step4 with
          | some i => (i : ℤ)
          | none => unknown_index

/-- `embedding::lookup_word` (lines 22–116).  Subform mode first consults the
`decomposed_forms` memo (a stored value, negative or not, is returned as is —
lines 28 and 69); on a memo miss it wraps the word as `<word>`, collects the
dictionary hits among its 2–4-code-point n-grams, and either bails out with the
negative `unknown_index` (memoising it, lines 48–53) or registers a new
composed id with the sorted duplicate-free constituent list, a zero row and a
stale cache slot (lines 54–66).  Without subform mode the word goes through the
heuristic chain and the state is untouched. -/
def embedding.lookup_word (U : UnicodeModel) (e : embedding) (word : String) :
    ℤ × embedding :=
  if e.subform then
    match List.lookup word e.decomposed_forms with
    | some v => (v, e)
    | none =>
      let marked := '<' :: word.toList ++ ['>']
      let hits := collectSubforms e.dictionary marked
      if hits = [] ∧ e.unknown_index < 0 then
        (e.unknown_index,
         { e with decomposed_forms := emplaceForm e.decomposed_forms word e.unknown_index })
      else
        let subs := sortUnique (if hits = [] then [e.unknown_index.toNat] else hits)
        let id := e.subforms.length
        ((id : ℤ),
         { e with
           subforms := e.subforms ++ [subs],
           previous_weights := e.previous_weights ++ [List.replicate (e.dimension + 1) 0],
           weights := e.weights ++ zeros e.dimension,
           decomposed_forms := emplaceForm e.decomposed_forms word (id : ℤ) })
  else
    (heuristicLookup U e.dictionary e.unknown_index word, e)

/-- `embedding::weight` (lines 126–147): `none` for a negative or out-of-range
id; otherwise, in subform mode, a composed id (non-empty cache slot) whose
validity flag is `0` is first materialised — zero the row, accumulate every
constituent row into it, scale by `1/count`, copy the result into the cache
slot, set the flag to `1`, push the id onto the active set — and the row is
returned together with the updated state. -/
def embedding.weight (e : embedding) (id : ℤ) : Option (List ℚ) × embedding :=
  if id < 0 then (none, e)
  else
    let i := id.toNat
    let d := e.dimension
    if e.weights.length ≤ i * d then (none, e)
    else
      if e.subform = true ∧ (e.previous_weights.getD i []) ≠ [] ∧
          (e.previous_weights.getD i []).getD d 0 = 0 then
        let subs := e.subforms.getD i []
        let w1 := setRow e.weights d i (zeros d)
        let w2 := subs.foldl (fun w s => setRow w d i (vecAdd (getRow w d i) (getRow w d s))) w1
        let w3 := setRow w2 d i (vecScale (1 / (subs.length : ℚ)) (getRow w2 d i))
        let slot := ((getRow w3 d i).take d ++ (e.previous_weights.getD i []).drop d).set d 1
        (some (getRow w3 d i),
         { e with weights := w3,
                  previous_weights := e.previous_weights.set i slot,
                  active_subforms := e.active_subforms ++ [i] })
      else (some (getRow e.weights d i), e)

/-- The body of the loop of `embedding::update_weights` (lines 151–161) for one
active id: overwrite the composed row with `(row − snapshot) / count`, add that
row to every constituent row, and zero the validity flag of the cache slot. -/
def flushOne (e : embedding) (id : ℕ) : embedding :=
  let d := e.dimension
  let subs := e.subforms.getD id []
  let normalize : ℚ := 1 / (subs.length : ℚ)
  let w1 := setRow e.weights d id
      (vecScale normalize (vecSub (getRow e.weights d id) ((e.previous_weights.getD id []).take d)))
  let w2 := subs.foldl (fun w s => setRow w d s (vecAdd (getRow w d s) (getRow w d id))) w1
  { e with weights := w2,
           previous_weights := e.previous_weights.set id ((e.previous_weights.getD id []).set d 0) }

/-- `embedding::update_weights` (lines 149–164): flush every active id, then
clear the active set; a no-op without subform mode. -/
def embedding.update_weights (e : embedding) : embedding :=
  if e.subform then
    let e1 := e.active_subforms.foldl flushOne e
    { e1 with active_subforms := [] }
  else e

/-- One primitive read from the external `binary_decoder` (itself outside this
component): a 4-byte integer, a 1-byte integer, a length-prefixed string, or
one 32-bit float. -/
inductive Tok where
  | u4 : ℕ → Tok
  | u1 : ℕ → Tok
  | str : String → Tok
  | flt : ℚ → Tok
deriving DecidableEq

/-- The dictionary-loading loop of lines 175–178: read `n` strings, `emplace`
each with the current map size as id. -/
def readWords : ℕ → List (String × ℕ) → List Tok → Option (List (String × ℕ) × List Tok)
  | 0, dict, ts => some (dict, ts)
  | n + 1, dict, Tok.str w :: ts => readWords n (emplaceDict dict w) ts
  | _ + 1, _, _ => none

/-- `data.next<float>(n)`: read `n` consecutive floats. -/
def readFloats : ℕ → List Tok → Option (List ℚ × List Tok)
  | 0, ts => some ([], ts)
  | n + 1, Tok.flt q :: ts =>
    match readFloats n ts with
    | some (qs, ts2) => some (q :: qs, ts2)
    | none => none
  | _ + 1, _ => none

/-- `embedding::load` (lines 166–189): dimension, dictionary size, that many
words (`emplace`d in read order), the has-unknown byte (`unknown_index` becomes
the dictionary size or `-1`), the subform byte, then
`dimension * (dictionary.size() + (unknown_index ≥ 0))` floats; finally the
per-id auxiliary structures are sized to `weights.size() / dimension` empty
entries.  Any other stream shape is a decode failure (`none`). -/
def embedding.load (ts : List Tok) : Option (embedding × List Tok) :=
  match ts with
  | Tok.u4 d :: Tok.u4 n :: ts1 =>
    match readWords n [] ts1 with
    | some (dict, Tok.u1 hu :: Tok.u1 sf :: ts2) =>
      let unknown_index : ℤ := if hu ≠ 0 then (dict.length : ℤ) else -1
      let count := d * (dict.length + (if 0 ≤ unknown_index then 1 else 0))
      match readFloats count ts2 with
      | some (ws, ts3) =>
        some ({ dimension := d, dictionary := dict, unknown_index := unknown_index,
                subform := sf != 0, weights := ws,
                subforms := List.replicate (ws.length / d) [],
                previous_weights := List.replicate (ws.length / d) [],
                active_subforms := [], decomposed_forms := [] }, ts3)
      | none => none
    | _ => none
  | _ => none

/-- One call of the component's public surface: `lookup_word`, `weight`, or
`update_weights` (only their state effect). -/
inductive Op where
  | look : String → Op
  | getw : ℤ → Op
  | flush : Op
deriving DecidableEq

/-- The state after one operation. -/
def runOp (U : UnicodeModel) (e : embedding) : Op → embedding
  | Op.look w => (embedding.lookup_word U e w).2
  | Op.getw id => (e.weight id).2
  | Op.flush => e.update_weights

/-- The state after a sequence of operations. -/
def runOps (U : UnicodeModel) (e : embedding) (ops : List Op) : embedding :=
  ops.foldl (runOp U) e

/-- An ASCII instance of the abstract unicode capability, used for concrete
witnesses: `A`–`Z` are the uppercase/titlecase letters, `0`–`9` the numbers. -/
def asciiUnicode : UnicodeModel where
  isLut c := decide ('A' ≤ c ∧ c ≤ 'Z')
  isL c := decide (('A' ≤ c ∧ c ≤ 'Z') ∨ ('a' ≤ c ∧ c ≤ 'z'))
  isN c := decide ('0' ≤ c ∧ c ≤ '9')
  lowercase c := if 'A' ≤ c ∧ c ≤ 'Z' then Char.ofNat (c.toNat + 32) else c

/-! ### Basic facts about rows of the flat weight matrix -/

theorem length_setRow {w v : List ℚ} {d i : ℕ} (hv : v.length = d)
    (hb : i * d + d ≤ w.length) : (setRow w d i v).length = w.length := by
  simp [setRow, List.length_append, List.length_take, List.length_drop]
  omega

theorem length_getRow_of_le {w : List ℚ} {d i : ℕ} (hb : i * d + d ≤ w.length) :
    (getRow w d i).length = d := by
  simp [getRow, List.length_take, List.length_drop]
  omega

theorem getElem?_getRow {w : List ℚ} {d i : ℕ} (n : ℕ) :
    (getRow w d i)[n]? = if n < d then w[i * d + n]? else none := by
  simp [getRow, List.getElem?_take, List.getElem?_drop]

theorem getElem?_setRow {w v : List ℚ} {d i : ℕ} (hv : v.length = d)
    (hb : i * d + d ≤ w.length) (m : ℕ) :
    (setRow w d i v)[m]? =
      if i * d ≤ m ∧ m < i * d + d then v[m - i * d]? else w[m]? := by
  have hA : (w.take (i * d)).length = i * d := by
    simp [List.length_take]
    omega
  simp only [setRow, List.getElem?_append, List.length_append, hA, hv,
    List.getElem?_take, List.getElem?_drop]
  split_ifs <;> first
    | rfl
    | omega
    | (congr 1; omega)

theorem getRow_setRow_self {w v : List ℚ} {d i : ℕ} (hv : v.length = d)
    (hb : i * d + d ≤ w.length) : getRow (setRow w d i v) d i = v := by
  apply List.ext_getElem?
  intro n
  rw [getElem?_getRow, getElem?_setRow hv hb]
  by_cases hn : n < d
  · rw [if_pos hn, if_pos (by omega : i * d ≤ i * d + n ∧ i * d + n < i * d + d)]
    congr 1
    omega
  · rw [if_neg hn]
    symm
    exact List.getElem?_eq_none (by omega)

theorem getRow_setRow_ne {w v : List ℚ} {d i j : ℕ} (hv : v.length = d)
    (hb : i * d + d ≤ w.length) (hij : j ≠ i) :
    getRow (setRow w d i v) d j = getRow w d j := by
  apply List.ext_getElem?
  intro n
  rw [getElem?_getRow, getElem?_getRow, getElem?_setRow hv hb]
  by_cases hn : n < d
  · rw [if_pos hn, if_pos hn]
    have hP : ¬(i * d ≤ j * d + n ∧ j * d + n < i * d + d) := by
      rcases lt_or_gt_of_ne hij with hj | hj
      · have h1 : (j + 1) * d ≤ i * d := mul_le_mul_right' (by omega) d
        rw [Nat.succ_mul] at h1
        omega
      · have h1 : (i + 1) * d ≤ j * d := mul_le_mul_right' (by omega) d
        rw [Nat.succ_mul] at h1
        omega
    rw [if_neg hP]
  · rw [if_neg hn, if_neg hn]

theorem setRow_setRow {w v v2 : List ℚ} {d i : ℕ} (hv : v.length = d)
    (hv2 : v2.length = d) (hb : i * d + d ≤ w.length) :
    setRow (setRow w d i v) d i v2 = setRow w d i v2 := by
  apply List.ext_getElem?
  intro n
  rw [getElem?_setRow hv2 (by rw [length_setRow hv hb]; exact hb),
      getElem?_setRow hv hb, getElem?_setRow hv2 hb]
  split
  · rfl
  · rfl

theorem length_vecAdd (a b : List ℚ) : (vecAdd a b).length = min a.length b.length := by
  simp [vecAdd]

theorem length_vecSub (a b : List ℚ) : (vecSub a b).length = min a.length b.length := by
  simp [vecSub]

theorem length_vecScale (c : ℚ) (a : List ℚ) : (vecScale c a).length = a.length := by
  simp [vecScale]

theorem length_zeros (d : ℕ) : (zeros d).length = d := by
  simp [zeros]

theorem vecAdd_zeros_left {v : List ℚ} {d : ℕ} (h : v.length ≤ d) :
    vecAdd (zeros d) v = v := by
  induction v generalizing d with
  | nil => simp [vecAdd]
  | cons x xs ih =>
    cases d with
    | zero => simp at h
    | succ d =>
      simp only [zeros, List.replicate_succ, vecAdd, List.zipWith_cons_cons, zero_add]
      rw [show List.zipWith (· + ·) (List.replicate d 0) xs = vecAdd (zeros d) xs from rfl,
        ih (by simpa using h)]

theorem vecAdd_assoc (a b c : List ℚ) :
    vecAdd (vecAdd a b) c = vecAdd a (vecAdd b c) := by
  induction a generalizing b c with
  | nil => simp [vecAdd]
  | cons x xs ih =>
    cases b with
    | nil => simp [vecAdd]
    | cons y ys =>
      cases c with
      | nil => simp [vecAdd]
      | cons z zs =>
        simp only [vecAdd, List.zipWith_cons_cons, add_assoc]
        exact congrArg _ (ih ys zs)

/-! ### Concrete states used by witnesses and counterexamples -/

/-- A loaded-style state with subform mode on: dimension 1, dictionary with the
single word "cat" (id 0), no unknown row, one weight row. -/
def eSubEx : embedding :=
  { dimension := 1, dictionary := [("cat", 0)], unknown_index := -1, subform := true,
    weights := [1], subforms := [[]], previous_weights := [[]],
    active_subforms := [], decomposed_forms := [] }

/-- A loaded-style state with subform mode off: dimension 1, dictionary
{"the" ↦ 0, "7" ↦ 1}, no unknown row. -/
def eHeurEx : embedding :=
  { dimension := 1, dictionary := [("the", 0), ("7", 1)], unknown_index := -1,
    subform := false, weights := [5, 6], subforms := [[], []],
    previous_weights := [[], []], active_subforms := [], decomposed_forms := [] }

/-! ### C1 -/

/-- C1 is false as stated: in subform mode `lookup_word` does not consult the
dictionary on the whole word.  In `eSubEx` the word "cat" is present verbatim
with id 0, yet `lookup_word` returns the freshly composed id 1 (the 3-gram
"cat" of `<cat>` becomes its constituent), not the dictionary id 0. -/
theorem C1_counterexample :
    List.lookup "cat" eSubEx.dictionary = some 0 ∧
    eSubEx.subform = true ∧
    (embedding.lookup_word asciiUnicode eSubEx "cat").1 = 1 := by
  refine ⟨rfl, rfl, ?_⟩
  decide

/-- C1 (amended): in non-subform mode, for every word present verbatim in the
dictionary, `lookup_word` returns that word's assigned dictionary id and leaves
the state untouched — the dictionary is consulted first and a verbatim hit wins
before any heuristic.  (In subform mode the whole word is never looked up in
the dictionary; it is resolved through the memo/composition path.) -/
theorem C1_verbatim_hit (U : UnicodeModel) (e : embedding) (word : String)
    (i : ℕ) (hs : e.subform = false) (h : List.lookup word e.dictionary = some i) :
    embedding.lookup_word U e word = ((i : ℤ), e) := by
  simp [embedding.lookup_word, hs, heuristicLookup, h]

/-- Witness for `C1_verbatim_hit` at a concrete state: "the" has id 0 in
`eHeurEx` and `lookup_word` returns exactly that. -/
theorem C1_verbatim_hit_witness :
    eHeurEx.subform = false ∧ List.lookup "the" eHeurEx.dictionary = some 0 ∧
    embedding.lookup_word asciiUnicode eHeurEx "the" = (0, eHeurEx) :=
  ⟨rfl, rfl, C1_verbatim_hit asciiUnicode eHeurEx "the" 0 rfl rfl⟩

/-! ### C9 -/

/-- C9: `weight` returns a not-found result exactly when the id is negative or
at least the current row count (`weights.size() / dimension`); an out-of-range
id changes no state, and every in-range id yields the row.  The hypothesis is
the shape invariant of the weight matrix (its length is the number of row slots
times the row width), which `load` establishes and every operation preserves. -/
theorem C9_weight_bounds (e : embedding) (id : ℤ)
    (hw : e.weights.length = e.subforms.length * e.dimension) :
    ((e.weight id).1 = none ↔
        (id < 0 ∨ ((e.weights.length / e.dimension : ℕ) : ℤ) ≤ id)) ∧
    ((id < 0 ∨ ((e.weights.length / e.dimension : ℕ) : ℤ) ≤ id) → (e.weight id).2 = e) ∧
    (¬(id < 0 ∨ ((e.weights.length / e.dimension : ℕ) : ℤ) ≤ id) →
        ((e.weight id).1).isSome = true) := by
  have hiff : ¬id < 0 →
      (e.weights.length ≤ id.toNat * e.dimension ↔
        ((e.weights.length / e.dimension : ℕ) : ℤ) ≤ id) := by
    intro h0
    rcases Nat.eq_zero_or_pos e.dimension with hd | hd
    · have h1 : e.weights.length = 0 := by rw [hw, hd, Nat.mul_zero]
      simp [h1, hd]
      omega
    · have h2 : e.weights.length / e.dimension = e.subforms.length := by
        rw [hw, Nat.mul_div_cancel _ hd]
      rw [h2]
      constructor
      · intro h
        rw [hw] at h
        have := Nat.le_of_mul_le_mul_right h hd
        omega
      · intro h
        rw [hw]
        have : e.subforms.length ≤ id.toNat := by omega
        exact Nat.mul_le_mul_right _ this
  unfold embedding.weight
  by_cases h0 : id < 0
  · simp only [if_pos h0]
    exact ⟨⟨fun _ => Or.inl h0, fun _ => trivial⟩, fun _ => trivial,
      fun h => absurd (Or.inl h0) h⟩
  · simp only [if_neg h0]
    by_cases h1 : e.weights.length ≤ id.toNat * e.dimension
    · simp only [if_pos h1]
      exact ⟨⟨fun _ => Or.inr ((hiff h0).mp h1), fun _ => trivial⟩, fun _ => trivial,
        fun h => absurd (Or.inr ((hiff h0).mp h1)) h⟩
    · simp only [if_neg h1]
      refine ⟨⟨fun hnone => ?_, fun hor => ?_⟩, fun hor => ?_, fun _ => ?_⟩
      · exfalso
        revert hnone
        split <;> simp
      · rcases hor with h | h
        · exact absurd h h0
        · exact absurd ((hiff h0).mpr h) h1
      · rcases hor with h | h
        · exact absurd h h0
        · exact absurd ((hiff h0).mpr h) h1
      · split <;> simp

/-- Witness for `C9_weight_bounds`: in `eHeurEx` (2 rows of width 1), id 5 is
out of range and reported as not found with no state change, while id 0 is in
range and yields a row. -/
theorem C9_weight_bounds_witness :
    eHeurEx.weights.length = eHeurEx.subforms.length * eHeurEx.dimension ∧
    ((eHeurEx.weight 5).1 = none ↔
      ((5 : ℤ) < 0 ∨ ((eHeurEx.weights.length / eHeurEx.dimension : ℕ) : ℤ) ≤ 5)) ∧
    (((5 : ℤ) < 0 ∨ ((eHeurEx.weights.length / eHeurEx.dimension : ℕ) : ℤ) ≤ 5) →
      (eHeurEx.weight 5).2 = eHeurEx) ∧
    (¬((0 : ℤ) < 0 ∨ ((eHeurEx.weights.length / eHeurEx.dimension : ℕ) : ℤ) ≤ 0) →
      ((eHeurEx.weight 0).1).isSome = true) :=
  ⟨rfl, (C9_weight_bounds eHeurEx 5 rfl).1, (C9_weight_bounds eHeurEx 5 rfl).2.1,
    (C9_weight_bounds eHeurEx 0 rfl).2.2⟩

/-! ### Evaluation lemmas for the subform path of `lookup_word` -/

theorem emplaceForm_of_not_mem {l : List (String × ℤ)} {w : String} {v : ℤ}
    (h : List.lookup w l = none) : emplaceForm l w v = l ++ [(w, v)] := by
  simp [emplaceForm, h]

theorem sortUnique_singleton (a : ℕ) : sortUnique [a] = [a] := rfl

/-- In subform mode a memoised word (a hit in `decomposed_forms`, lines 28 and
69) is returned as stored, with no state change. -/
theorem lookup_word_hit (U : UnicodeModel) (e : embedding) (word : String) (v : ℤ)
    (hs : e.subform = true) (hhit : List.lookup word e.decomposed_forms = some v) :
    embedding.lookup_word U e word = (v, e) := by
  unfold embedding.lookup_word
  rw [hs, hhit]
  rfl

/-- In subform mode a memo miss takes either the bail-out branch (no n-gram hit
and no unknown id) or the composed-id creation branch. -/
theorem lookup_word_miss (U : UnicodeModel) (e : embedding) (word : String)
    (hs : e.subform = true) (hmiss : List.lookup word e.decomposed_forms = none) :
    embedding.lookup_word U e word =
      (if collectSubforms e.dictionary ('<' :: word.toList ++ ['>']) = [] ∧
          e.unknown_index < 0 then
        (e.unknown_index,
         { e with decomposed_forms := emplaceForm e.decomposed_forms word e.unknown_index })
      else
        ((e.subforms.length : ℤ),
         { e with
           subforms := e.subforms ++
             [sortUnique (if collectSubforms e.dictionary ('<' :: word.toList ++ ['>']) = []
               then [e.unknown_index.toNat]
               else collectSubforms e.dictionary ('<' :: word.toList ++ ['>']))],
           previous_weights := e.previous_weights ++ [List.replicate (e.dimension + 1) 0],
           weights := e.weights ++ zeros e.dimension,
           decomposed_forms := emplaceForm e.decomposed_forms word ((e.subforms.length : ℤ)) })) := by
  unfold embedding.lookup_word
  rw [hs, hmiss]
  rfl

/-! ### C7 -/

/-- C7: in subform mode, when no generated n-gram of a non-memoised word
matches any dictionary entry: without a configured unknown id the negative
sentinel is recorded in the memo and returned and nothing else changes (no new
row, subform list or cache slot); with an unknown id, the new composed id (the
next row index) has exactly the unknown id as its sole constituent. -/
theorem C7_no_ngram_match (U : UnicodeModel) (e : embedding) (word : String)
    (hs : e.subform = true)
    (hmiss : List.lookup word e.decomposed_forms = none)
    (hnone : collectSubforms e.dictionary ('<' :: word.toList ++ ['>']) = []) :
    (e.unknown_index < 0 →
      embedding.lookup_word U e word =
        (e.unknown_index,
         { e with decomposed_forms := e.decomposed_forms ++ [(word, e.unknown_index)] })) ∧
    (0 ≤ e.unknown_index →
      (embedding.lookup_word U e word).1 = (e.subforms.length : ℤ) ∧
      (embedding.lookup_word U e word).2.subforms =
        e.subforms ++ [[e.unknown_index.toNat]]) := by
  have hm := lookup_word_miss U e word hs hmiss
  rw [hnone] at hm
  constructor
  · intro hneg
    rw [if_pos ⟨rfl, hneg⟩, emplaceForm_of_not_mem hmiss] at hm
    exact hm
  · intro hpos
    rw [if_neg (fun h => absurd h.2 (not_lt.mpr hpos))] at hm
    rw [hm]
    exact ⟨rfl, by rw [if_pos rfl, sortUnique_singleton]⟩

/-- The bail-out example state: empty dictionary, no unknown row, subform on. -/
def eBail : embedding :=
  { dimension := 1, dictionary := [], unknown_index := -1, subform := true,
    weights := [], subforms := [], previous_weights := [],
    active_subforms := [], decomposed_forms := [] }

/-- Like `eBail` but with a configured unknown row (id 0). -/
def eUnk : embedding :=
  { dimension := 1, dictionary := [], unknown_index := 0, subform := true,
    weights := [9], subforms := [[]], previous_weights := [[]],
    active_subforms := [], decomposed_forms := [] }

/-- Witness for `C7_no_ngram_match` at two concrete states: with no unknown id,
looking up "x" returns the sentinel −1 and only memoises it; with unknown id 0,
it creates composed id 1 with constituent list `[0]`. -/
theorem C7_no_ngram_match_witness :
    (embedding.lookup_word asciiUnicode eBail "x" =
      (-1, { eBail with decomposed_forms := [("x", -1)] })) ∧
    ((embedding.lookup_word asciiUnicode eUnk "x").1 = 1 ∧
     (embedding.lookup_word asciiUnicode eUnk "x").2.subforms = [[], [0]]) := by
  constructor
  · have h := (C7_no_ngram_match asciiUnicode eBail "x" rfl rfl (by decide)).1 (by decide)
    simpa using h
  · have h := (C7_no_ngram_match asciiUnicode eUnk "x" rfl rfl (by decide)).2 (by decide)
    simpa using h

/-! ### C4 -/

theorem lookup_append_of_none {β : Type} {l : List (String × β)} {w : String}
    {v : β} (h : List.lookup w l = none) : List.lookup w (l ++ [(w, v)]) = some v := by
  induction l with
  | nil => simp
  | cons p l ih =>
    obtain ⟨k, x⟩ := p
    cases hbeq : (w == k) with
    | true => simp [List.lookup, hbeq] at h
    | false =>
      simp only [List.cons_append, List.lookup, hbeq] at h ⊢
      exact ih h

theorem foldl_flushOne_fields (l : List ℕ) (e : embedding) :
    (l.foldl flushOne e).decomposed_forms = e.decomposed_forms ∧
    (l.foldl flushOne e).subform = e.subform := by
  induction l generalizing e with
  | nil => exact ⟨rfl, rfl⟩
  | cons a l ih =>
    rw [List.foldl_cons]
    exact ⟨(ih (flushOne e a)).1, (ih (flushOne e a)).2⟩

/-- `update_weights` never touches the word memo or the mode flag. -/
theorem update_weights_fields (e : embedding) :
    e.update_weights.decomposed_forms = e.decomposed_forms ∧
    e.update_weights.subform = e.subform := by
  unfold embedding.update_weights
  split
  · exact ⟨(foldl_flushOne_fields _ e).1, (foldl_flushOne_fields _ e).2⟩
  · exact ⟨rfl, rfl⟩

/-- After any subform-mode lookup the word is memoised with the returned id,
and the mode flag is unchanged. -/
theorem lookup_word_memoises (U : UnicodeModel) (e : embedding) (word : String)
    (hs : e.subform = true) :
    List.lookup word (embedding.lookup_word U e word).2.decomposed_forms =
      some (embedding.lookup_word U e word).1 ∧
    (embedding.lookup_word U e word).2.subform = true := by
  cases hdf : List.lookup word e.decomposed_forms with
  | some v => rw [lookup_word_hit U e word v hs hdf]; exact ⟨hdf, hs⟩
  | none =>
    rw [lookup_word_miss U e word hs hdf]
    split
    · exact ⟨by simp only [emplaceForm_of_not_mem hdf]; exact lookup_append_of_none hdf, hs⟩
    · exact ⟨by simp only [emplaceForm_of_not_mem hdf]; exact lookup_append_of_none hdf, hs⟩

/-- C4: in subform mode `lookup_word` is idempotent on any fixed word — a
second lookup returns the same id, and so does a further lookup after an
intervening `update_weights`: the memo maps the word to the id returned by the
first call and neither operation rewrites it (composed ids are never recycled). -/
theorem C4_lookup_idempotent (U : UnicodeModel) (e : embedding) (word : String)
    (hs : e.subform = true) :
    (embedding.lookup_word U (embedding.lookup_word U e word).2 word).1 =
      (embedding.lookup_word U e word).1 ∧
    (embedding.lookup_word U (embedding.lookup_word U e word).2.update_weights word).1 =
      (embedding.lookup_word U e word).1 := by
  obtain ⟨hmem, hsub⟩ := lookup_word_memoises U e word hs
  constructor
  · rw [lookup_word_hit U _ word _ hsub hmem]
  · have h2 := update_weights_fields (embedding.lookup_word U e word).2
    rw [lookup_word_hit U _ word _ (h2.2.trans hsub) (h2.1.symm ▸ hmem)]

/-- Witness for `C4_lookup_idempotent`: in `eSubEx` (subform on) the unseen
word "cats" gets composed id 1 and keeps it across a repeat lookup and a
lookup after `update_weights`. -/
theorem C4_lookup_idempotent_witness :
    eSubEx.subform = true ∧
    (embedding.lookup_word asciiUnicode eSubEx "cats").1 = 1 ∧
    (embedding.lookup_word asciiUnicode
        (embedding.lookup_word asciiUnicode eSubEx "cats").2 "cats").1 =
      (embedding.lookup_word asciiUnicode eSubEx "cats").1 ∧
    (embedding.lookup_word asciiUnicode
        (embedding.lookup_word asciiUnicode eSubEx "cats").2.update_weights "cats").1 =
      (embedding.lookup_word asciiUnicode eSubEx "cats").1 :=
  ⟨rfl, by decide, (C4_lookup_idempotent asciiUnicode eSubEx "cats" rfl).1,
    (C4_lookup_idempotent asciiUnicode eSubEx "cats" rfl).2⟩

/-! ### C6 -/

/-- Without subform mode `lookup_word` is the heuristic chain and the state is
untouched. -/
theorem lookup_word_nonsubform (U : UnicodeModel) (e : embedding) (word : String)
    (hs : e.subform = false) :
    embedding.lookup_word U e word =
      (heuristicLookup U e.dictionary e.unknown_index word, e) := by
  unfold embedding.lookup_word
  rw [hs]
  rfl

/-- C6: in non-subform mode for a word absent verbatim: (a) if the first
character is uppercase/titlecase and at least one later character is too, the
next probe is the word with every character but the first lowercased, and a hit
there is returned; (b) for a word whose first character alone is
uppercase/titlecase (like "The") that is absent while its fully-lowercased form
("the") is present, `lookup_word` returns the lowercased form's id. -/
theorem C6_case_heuristics (U : UnicodeModel) (e : embedding) (c : Char)
    (rest : List Char) (word : String) (i : ℕ)
    (hs : e.subform = false) (hword : word.toList = c :: rest)
    (habs : List.lookup word e.dictionary = none) :
    ((U.isLut c = true ∧ rest.any U.isLut = true ∧
        List.lookup (String.mk (c :: rest.map U.lowercase)) e.dictionary = some i) →
      (embedding.lookup_word U e word).1 = (i : ℤ)) ∧
    ((U.isLut c = true ∧ rest.any U.isLut = false ∧
        List.lookup (String.mk ((c :: rest).map U.lowercase)) e.dictionary = some i) →
      (embedding.lookup_word U e word).1 = (i : ℤ)) := by
  have hL := lookup_word_nonsubform U e word hs
  constructor
  · rintro ⟨h1, h2, h3⟩
    rw [hL]
    show heuristicLookup U e.dictionary e.unknown_index word = (i : ℤ)
    unfold heuristicLookup
    rw [habs, hword]
    simp only [h1, h2, Bool.and_self, if_true, h3]
  · rintro ⟨h1, h2, h3⟩
    rw [hL]
    show heuristicLookup U e.dictionary e.unknown_index word = (i : ℤ)
    unfold heuristicLookup
    rw [habs, hword]
    simp only [h1, h2, Bool.and_false, Bool.true_or, Bool.false_eq_true, if_false, if_true, h3]

/-- A non-subform state whose dictionary contains both "The" and "the". -/
def eHeur2 : embedding :=
  { dimension := 1, dictionary := [("The", 0), ("the", 1)], unknown_index := -1,
    subform := false, weights := [5, 6], subforms := [[], []],
    previous_weights := [[], []], active_subforms := [], decomposed_forms := [] }

/-- Witness for `C6_case_heuristics`: "THE" (two later uppercase letters) hits
"The" via the lowercase-all-but-first probe in `eHeur2`; "The" (only the first
letter uppercase) hits "the" via the lowercase-everything probe in `eHeurEx`. -/
theorem C6_case_heuristics_witness :
    (embedding.lookup_word asciiUnicode eHeur2 "THE").1 = 0 ∧
    (embedding.lookup_word asciiUnicode eHeurEx "The").1 = 0 :=
  ⟨(C6_case_heuristics asciiUnicode eHeur2 'T' ['H', 'E'] "THE" 0 rfl (by decide)
      (by decide)).1 ⟨by decide, by decide, by decide⟩,
   (C6_case_heuristics asciiUnicode eHeurEx 'T' ['h', 'e'] "The" 0 rfl (by decide)
      (by decide)).2 ⟨by decide, by decide, by decide⟩⟩

/-! ### C3 -/

theorem set_append_of_length {l1 l2 : List ℚ} {d : ℕ} {x : ℚ} (h : l1.length = d) :
    (l1 ++ l2).set d x = l1 ++ l2.set 0 x := by
  apply List.ext_getElem?
  intro n
  rw [List.getElem?_set, List.getElem?_append, List.getElem?_append, List.getElem?_set]
  simp only [List.length_append, h]
  split_ifs <;> first
    | rfl
    | omega

/-- The sum of the rows of `w` listed in `subs`, starting from the zero row
(the accumulation loop of lines 131–134 seen functionally). -/
def sumRows (w : List ℚ) (d : ℕ) (subs : List ℕ) : List ℚ :=
  subs.foldl (fun acc s => vecAdd acc (getRow w d s)) (zeros d)

/-- The element-wise arithmetic mean of the rows of `w` listed in `subs`. -/
def meanRows (w : List ℚ) (d : ℕ) (subs : List ℕ) : List ℚ :=
  vecScale (1 / (subs.length : ℚ)) (sumRows w d subs)

theorem length_foldl_vecAdd {w : List ℚ} {d : ℕ} {subs : List ℕ}
    (hsubs : ∀ s ∈ subs, s * d + d ≤ w.length) :
    ∀ {v : List ℚ}, v.length = d →
      (subs.foldl (fun acc s => vecAdd acc (getRow w d s)) v).length = d := by
  induction subs with
  | nil => intro v hv; simpa using hv
  | cons s ss ih =>
    intro v hv
    rw [List.foldl_cons]
    exact ih (fun t ht => hsubs t (List.mem_cons_of_mem _ ht))
      (by rw [length_vecAdd, hv, length_getRow_of_le (hsubs s (List.mem_cons_self _ _))]; simp)

theorem length_sumRows {w : List ℚ} {d : ℕ} {subs : List ℕ}
    (hsubs : ∀ s ∈ subs, s * d + d ≤ w.length) :
    (sumRows w d subs).length = d :=
  length_foldl_vecAdd hsubs (length_zeros d)

/-- The in-place accumulation loop of lines 131–134 computes, functionally: the
target row is overwritten with the running sum while no other row changes. -/
theorem accumulate_rows {w : List ℚ} {d i : ℕ} {subs : List ℕ}
    (hb : i * d + d ≤ w.length)
    (hsubs : ∀ s ∈ subs, s ≠ i ∧ s * d + d ≤ w.length) :
    ∀ {v : List ℚ}, v.length = d →
      subs.foldl (fun w2 s => setRow w2 d i (vecAdd (getRow w2 d i) (getRow w2 d s)))
          (setRow w d i v) =
        setRow w d i (subs.foldl (fun acc s => vecAdd acc (getRow w d s)) v) := by
  induction subs with
  | nil => intro v _; rfl
  | cons s ss ih =>
    intro v hv
    obtain ⟨hsi, hsb⟩ := hsubs s (List.mem_cons_self _ _)
    have hv2 : (vecAdd v (getRow w d s)).length = d := by
      rw [length_vecAdd, hv, length_getRow_of_le hsb]
      simp
    rw [List.foldl_cons, List.foldl_cons,
      getRow_setRow_self hv hb, getRow_setRow_ne hv hb hsi,
      setRow_setRow hv hv2 hb]
    exact ih (fun t ht => hsubs t (List.mem_cons_of_mem _ ht)) hv2

/-- C3: for a stale composed id, `weight` materialises before returning — the
returned row is the element-wise arithmetic mean of the constituent rows at
call time, the matrix row is overwritten with it, the cache slot becomes a copy
of the row with validity flag `1`, and the id is appended to the active set.
Hypotheses: subform mode, an in-range non-negative id, the matrix shape
invariant, a cache slot of length `dimension+1` with flag `0`, and constituents
that are valid row indices distinct from the id (all reachable-state
invariants of the component). -/
theorem C3_materialisation (e : embedding) (id : ℤ)
    (hs : e.subform = true) (h0 : ¬id < 0)
    (hin : id.toNat * e.dimension < e.weights.length)
    (hw : e.weights.length = e.subforms.length * e.dimension)
    (hslot : (e.previous_weights.getD id.toNat []).length = e.dimension + 1)
    (hstale : (e.previous_weights.getD id.toNat []).getD e.dimension 0 = 0)
    (hsubs : ∀ s ∈ e.subforms.getD id.toNat [],
      s ≠ id.toNat ∧ s * e.dimension + e.dimension ≤ e.weights.length) :
    (e.weight id).1 =
      some (meanRows e.weights e.dimension (e.subforms.getD id.toNat [])) ∧
    (e.weight id).2.weights =
      setRow e.weights e.dimension id.toNat
        (meanRows e.weights e.dimension (e.subforms.getD id.toNat [])) ∧
    (e.weight id).2.previous_weights =
      e.previous_weights.set id.toNat
        (meanRows e.weights e.dimension (e.subforms.getD id.toNat []) ++ [1]) ∧
    (e.weight id).2.active_subforms = e.active_subforms ++ [id.toNat] := by
  have hb : id.toNat * e.dimension + e.dimension ≤ e.weights.length := by
    rcases Nat.eq_zero_or_pos e.dimension with hd | hd
    · rw [hd, Nat.mul_zero] at hw ⊢
      omega
    · have h1 : id.toNat < e.subforms.length := by
        by_contra hc
        push_neg at hc
        have := Nat.mul_le_mul_right e.dimension hc
        omega
      have h2 : (id.toNat + 1) * e.dimension ≤ e.subforms.length * e.dimension :=
        Nat.mul_le_mul_right e.dimension h1
      rw [Nat.succ_mul] at h2
      omega
  have hne : (e.previous_weights.getD id.toNat []) ≠ [] := by
    intro hemp
    rw [hemp] at hslot
    simp at hslot
  have hsubs' : ∀ s ∈ e.subforms.getD id.toNat [],
      s * e.dimension + e.dimension ≤ e.weights.length := fun s hm => (hsubs s hm).2
  have hlen : (sumRows e.weights e.dimension (e.subforms.getD id.toNat [])).length
      = e.dimension := length_sumRows hsubs'
  have hmean : (meanRows e.weights e.dimension (e.subforms.getD id.toNat [])).length
      = e.dimension := by
    rw [meanRows, length_vecScale, hlen]
  have hacc : (e.subforms.getD id.toNat []).foldl
        (fun w2 s => setRow w2 e.dimension id.toNat
          (vecAdd (getRow w2 e.dimension id.toNat) (getRow w2 e.dimension s)))
        (setRow e.weights e.dimension id.toNat (zeros e.dimension)) =
      setRow e.weights e.dimension id.toNat
        (sumRows e.weights e.dimension (e.subforms.getD id.toNat [])) :=
    accumulate_rows hb hsubs (length_zeros e.dimension)
  have hrow2 : getRow (setRow e.weights e.dimension id.toNat
        (sumRows e.weights e.dimension (e.subforms.getD id.toNat [])))
        e.dimension id.toNat =
      sumRows e.weights e.dimension (e.subforms.getD id.toNat []) :=
    getRow_setRow_self hlen hb
  have hw3 : setRow (setRow e.weights e.dimension id.toNat
        (sumRows e.weights e.dimension (e.subforms.getD id.toNat [])))
        e.dimension id.toNat
        (meanRows e.weights e.dimension (e.subforms.getD id.toNat [])) =
      setRow e.weights e.dimension id.toNat
        (meanRows e.weights e.dimension (e.subforms.getD id.toNat [])) :=
    setRow_setRow hlen hmean hb
  have hrow3 : getRow (setRow e.weights e.dimension id.toNat
        (meanRows e.weights e.dimension (e.subforms.getD id.toNat [])))
        e.dimension id.toNat =
      meanRows e.weights e.dimension (e.subforms.getD id.toNat []) :=
    getRow_setRow_self hmean hb
  have hcond : e.subform = true ∧ (e.previous_weights.getD id.toNat []) ≠ [] ∧
      (e.previous_weights.getD id.toNat []).getD e.dimension 0 = 0 :=
    ⟨hs, hne, hstale⟩
  simp only [embedding.weight, if_neg h0, if_neg (not_le.mpr hin), if_pos hcond]
  rw [hacc, hrow2]
  rw [show vecScale (1 / (((e.subforms.getD id.toNat []).length : ℚ)))
        (sumRows e.weights e.dimension (e.subforms.getD id.toNat [])) =
      meanRows e.weights e.dimension (e.subforms.getD id.toNat []) from rfl]
  rw [hw3, hrow3]
  refine ⟨?_, ?_, ?_, ?_⟩ <;> try first | rfl | trivial
  have hdrop : ((e.previous_weights.getD id.toNat []).drop e.dimension).length = 1 := by
    rw [List.length_drop, hslot]
    omega
  obtain ⟨a, ha⟩ := List.length_eq_one.mp hdrop
  rw [List.take_of_length_le (le_of_eq hmean), set_append_of_length hmean, ha]
  rfl

/-- A subform-mode state with composed id 2 (constituents 0 and 1, rows `[2]`
and `[3]`) whose cache slot is stale. -/
def eMat : embedding :=
  { dimension := 1, dictionary := [("aa", 0), ("bb", 1)], unknown_index := -1,
    subform := true, weights := [2, 3, 0], subforms := [[], [], [0, 1]],
    previous_weights := [[], [], [0, 0]], active_subforms := [],
    decomposed_forms := [("x", 2)] }

/-- Witness for `C3_materialisation`: materialising composed id 2 of `eMat`
returns the mean `[5/2]` of rows `[2]` and `[3]` and appends 2 to the active
set. -/
theorem C3_materialisation_witness :
    (eMat.weight 2).1 =
      some (meanRows eMat.weights eMat.dimension (eMat.subforms.getD (2 : ℤ).toNat [])) ∧
    (eMat.weight 2).2.active_subforms = eMat.active_subforms ++ [(2 : ℤ).toNat] ∧
    meanRows eMat.weights eMat.dimension (eMat.subforms.getD (2 : ℤ).toNat [])
      = [(5 : ℚ)/2] := by
  have h := C3_materialisation eMat 2 rfl (by decide) (by decide) (by decide)
    (by decide) (by decide) (by decide)
  refine ⟨h.1, h.2.2.2, ?_⟩
  simp only [show Int.toNat 2 = 2 from rfl]
  norm_num [meanRows, sumRows, vecScale, vecAdd, zeros, getRow, eMat]

/-! ### C2 -/

theorem vecAdd_zeros_right {v : List ℚ} {d : ℕ} (h : v.length ≤ d) :
    vecAdd v (zeros d) = v := by
  induction v generalizing d with
  | nil => simp [vecAdd]
  | cons x xs ih =>
    cases d with
    | zero => simp at h
    | succ d =>
      simp only [zeros, List.replicate_succ, vecAdd, List.zipWith_cons_cons, add_zero]
      rw [show List.zipWith (· + ·) xs (List.replicate d 0) = vecAdd xs (zeros d) from rfl,
        ih (by simpa using h)]

theorem getD_set_ne {α : Type} {l : List α} {i j : ℕ} {x d : α} (h : i ≠ j) :
    (l.set i x).getD j d = l.getD j d := by
  rw [List.getD_eq_getElem?_getD, List.getD_eq_getElem?_getD, List.getElem?_set_ne h]

theorem getD_set_self {α : Type} {l : List α} {i : ℕ} {x d : α} (h : i < l.length) :
    (l.set i x).getD i d = x := by
  rw [List.getD_eq_getElem?_getD, List.getElem?_set]
  simp [h]

/-- The per-id delta of `update_weights` (line 154): `(current row − cached
snapshot) · (1 / constituent count)`, read in state `e`. -/
def deltaRow (e : embedding) (id : ℕ) : List ℚ :=
  vecScale (1 / (((e.subforms.getD id []).length : ℚ)))
    (vecSub (getRow e.weights e.dimension id)
      ((e.previous_weights.getD id []).take e.dimension))

/-- The total delta received by constituent row `c` over a list of flushed ids,
every delta read in the base state `e`. -/
def sumDeltas (e : embedding) (l : List ℕ) (c : ℕ) : List ℚ :=
  match l with
  | [] => zeros e.dimension
  | id :: t =>
    if c ∈ e.subforms.getD id [] then vecAdd (deltaRow e id) (sumDeltas e t c)
    else sumDeltas e t c

/-- The constituent-update loop of lines 156–158, functionally: every row
listed in `subs` (pairwise distinct, all different from `i`) receives the
current content of row `i` once; no other row changes. -/
theorem inner_flush {d : ℕ} (i : ℕ) :
    ∀ (subs : List ℕ) (w : List ℚ),
      subs.Nodup →
      (∀ s ∈ subs, s ≠ i ∧ s * d + d ≤ w.length) →
      i * d + d ≤ w.length →
      ((∀ c ∈ subs,
          getRow (subs.foldl
            (fun w2 s => setRow w2 d s (vecAdd (getRow w2 d s) (getRow w2 d i))) w) d c =
            vecAdd (getRow w d c) (getRow w d i)) ∧
       (∀ j, j ∉ subs →
          getRow (subs.foldl
            (fun w2 s => setRow w2 d s (vecAdd (getRow w2 d s) (getRow w2 d i))) w) d j =
            getRow w d j) ∧
       (subs.foldl
         (fun w2 s => setRow w2 d s (vecAdd (getRow w2 d s) (getRow w2 d i))) w).length =
         w.length) := by
  intro subs
  induction subs with
  | nil =>
    intro w _ _ _
    exact ⟨fun c hc => absurd hc (List.not_mem_nil c), fun j _ => rfl, rfl⟩
  | cons s ss ih =>
    intro w hnd hb hbi
    obtain ⟨hss, hndss⟩ := List.nodup_cons.mp hnd
    obtain ⟨hsi, hsb⟩ := hb s (List.mem_cons_self _ _)
    have hvlen : (vecAdd (getRow w d s) (getRow w d i)).length = d := by
      rw [length_vecAdd, length_getRow_of_le hsb, length_getRow_of_le hbi]
      simp
    have hw2 : (setRow w d s (vecAdd (getRow w d s) (getRow w d i))).length = w.length :=
      length_setRow hvlen hsb
    have hrec := ih (setRow w d s (vecAdd (getRow w d s) (getRow w d i))) hndss
      (fun t ht => ⟨(hb t (List.mem_cons_of_mem _ ht)).1,
        by rw [hw2]; exact (hb t (List.mem_cons_of_mem _ ht)).2⟩)
      (by rw [hw2]; exact hbi)
    simp only [List.foldl_cons]
    refine ⟨?_, ?_, ?_⟩
    · intro c hc
      rcases List.mem_cons.mp hc with hcs | hcss
      · subst hcs
        rw [hrec.2.1 c hss, getRow_setRow_self hvlen hsb]
      · have hcnes : c ≠ s := fun hEq => hss (hEq ▸ hcss)
        rw [hrec.1 c hcss, getRow_setRow_ne hvlen hsb hcnes,
          getRow_setRow_ne hvlen hsb (fun hEq => hsi hEq.symm)]
    · intro j hj
      have hjs : j ≠ s := fun hEq => hj (hEq ▸ List.mem_cons_self _ _)
      have hjss : j ∉ ss := fun hm => hj (List.mem_cons_of_mem _ hm)
      rw [hrec.2.1 j hjss, getRow_setRow_ne hvlen hsb hjs]
    · exact hrec.2.2.trans hw2

theorem length_deltaRow {e : embedding} {id : ℕ}
    (hbi : id * e.dimension + e.dimension ≤ e.weights.length)
    (hslot : (e.previous_weights.getD id []).length = e.dimension + 1) :
    (deltaRow e id).length = e.dimension := by
  rw [deltaRow, length_vecScale, length_vecSub, length_getRow_of_le hbi,
    List.length_take, hslot]
  omega

/-- What one turn of the `update_weights` loop (lines 151–161) does: every
constituent row gains the delta, every other row except the composed one is
untouched, the matrix keeps its length, and only the flushed id's cache slot
changes (its flag entry zeroed). -/
theorem flushOne_spec (e : embedding) (id : ℕ)
    (hbi : id * e.dimension + e.dimension ≤ e.weights.length)
    (hslot : (e.previous_weights.getD id []).length = e.dimension + 1)
    (hnd : (e.subforms.getD id []).Nodup)
    (hsubs : ∀ c ∈ e.subforms.getD id [], c ≠ id ∧
      c * e.dimension + e.dimension ≤ e.weights.length) :
    (∀ c ∈ e.subforms.getD id [],
      getRow (flushOne e id).weights e.dimension c =
        vecAdd (getRow e.weights e.dimension c) (deltaRow e id)) ∧
    (∀ j, j ∉ e.subforms.getD id [] → j ≠ id →
      getRow (flushOne e id).weights e.dimension j = getRow e.weights e.dimension j) ∧
    (flushOne e id).weights.length = e.weights.length ∧
    (flushOne e id).previous_weights =
      e.previous_weights.set id ((e.previous_weights.getD id []).set e.dimension 0) := by
  have hdl : (deltaRow e id).length = e.dimension := length_deltaRow hbi hslot
  have hw1 : (setRow e.weights e.dimension id (deltaRow e id)).length = e.weights.length :=
    length_setRow hdl hbi
  have hinner := inner_flush id (e.subforms.getD id [])
    (setRow e.weights e.dimension id (deltaRow e id)) hnd
    (fun c hc => ⟨(hsubs c hc).1, by rw [hw1]; exact (hsubs c hc).2⟩)
    (by rw [hw1]; exact hbi)
  refine ⟨?_, ?_, ?_, rfl⟩
  · intro c hc
    have h1 := hinner.1 c hc
    rw [getRow_setRow_ne hdl hbi (hsubs c hc).1, getRow_setRow_self hdl hbi] at h1
    exact h1
  · intro j hj hjid
    have h1 := hinner.2.1 j hj
    rw [getRow_setRow_ne hdl hbi hjid] at h1
    exact h1
  · exact hinner.2.2.trans hw1

theorem length_getRow_le (w : List ℚ) (d i : ℕ) : (getRow w d i).length ≤ d := by
  simp [getRow, List.length_take]

theorem sumDeltas_congr {e1 e : embedding} (l : List ℕ) (c : ℕ)
    (hdim : e1.dimension = e.dimension)
    (hsub : ∀ id ∈ l, e1.subforms.getD id [] = e.subforms.getD id [])
    (hdelta : ∀ id ∈ l, deltaRow e1 id = deltaRow e id) :
    sumDeltas e1 l c = sumDeltas e l c := by
  induction l with
  | nil => simp [sumDeltas, zeros, hdim]
  | cons a t ih =>
    simp only [sumDeltas]
    rw [hsub a (List.mem_cons_self _ _), hdelta a (List.mem_cons_self _ _),
      ih (fun id hm => hsub id (List.mem_cons_of_mem _ hm))
         (fun id hm => hdelta id (List.mem_cons_of_mem _ hm))]

/-- The whole `update_weights` loop over a duplicate-free active list whose
members are composed ids (at least `r`, in bounds, slot of length `d+1`,
duplicate-free constituents all below `r`): every row below `r` ends up as its
old value plus the sum of the deltas of the active ids that list it; rows at
least `r` outside the list are untouched; every flushed id's flag is zeroed,
and cache slots outside the list are untouched. -/
theorem flush_fold (r : ℕ) :
    ∀ (l : List ℕ) (e : embedding),
      l.Nodup →
      (∀ id ∈ l,
        r ≤ id ∧
        id * e.dimension + e.dimension ≤ e.weights.length ∧
        (e.previous_weights.getD id []).length = e.dimension + 1 ∧
        (e.subforms.getD id []).Nodup ∧
        ∀ c ∈ e.subforms.getD id [], c < r) →
      ((∀ c, c < r →
          getRow (l.foldl flushOne e).weights e.dimension c =
            vecAdd (getRow e.weights e.dimension c) (sumDeltas e l c)) ∧
       (∀ j, r ≤ j → j ∉ l →
          getRow (l.foldl flushOne e).weights e.dimension j =
            getRow e.weights e.dimension j) ∧
       (l.foldl flushOne e).weights.length = e.weights.length ∧
       (∀ j, j ∉ l →
          (l.foldl flushOne e).previous_weights.getD j [] =
            e.previous_weights.getD j []) ∧
       (∀ id ∈ l,
          ((l.foldl flushOne e).previous_weights.getD id []).getD e.dimension 0 = 0)) := by
  intro l
  induction l with
  | nil =>
    intro e _ _
    refine ⟨fun c _ => ?_, fun j _ _ => rfl, rfl, fun j _ => rfl,
      fun id h => absurd h (List.not_mem_nil id)⟩
    rw [List.foldl_nil]
    exact (vecAdd_zeros_right (length_getRow_le _ _ _)).symm
  | cons id0 rest ih =>
    intro e hnd H
    obtain ⟨h0rest, hndrest⟩ := List.nodup_cons.mp hnd
    obtain ⟨hr0, hb0, hslot0, hnd0, hcov0⟩ := H id0 (List.mem_cons_self _ _)
    have hcb : ∀ c ∈ e.subforms.getD id0 [], c ≠ id0 ∧
        c * e.dimension + e.dimension ≤ e.weights.length := by
      intro c hc
      have hcr := hcov0 c hc
      have h2 : (c + 1) * e.dimension ≤ id0 * e.dimension :=
        mul_le_mul_right' (by omega) _
      rw [Nat.succ_mul] at h2
      exact ⟨by omega, by omega⟩
    have fsp := flushOne_spec e id0 hb0 hslot0 hnd0 hcb
    have hlt0 : id0 < e.previous_weights.length := by
      by_contra hcon
      push_neg at hcon
      rw [List.getD_eq_getElem?_getD, List.getElem?_eq_none hcon] at hslot0
      simp at hslot0
    have hpw1 : ∀ j, j ≠ id0 →
        (flushOne e id0).previous_weights.getD j [] = e.previous_weights.getD j [] := by
      intro j hj
      rw [fsp.2.2.2, getD_set_ne (fun hEq => hj hEq.symm)]
    have hrow1 : ∀ j, r ≤ j → j ≠ id0 →
        getRow (flushOne e id0).weights e.dimension j = getRow e.weights e.dimension j := by
      intro j hrj hj
      exact fsp.2.1 j (fun hm => absurd (hcov0 j hm) (by omega)) hj
    have Hrest : ∀ id ∈ rest,
        r ≤ id ∧
        id * (flushOne e id0).dimension + (flushOne e id0).dimension ≤
          (flushOne e id0).weights.length ∧
        ((flushOne e id0).previous_weights.getD id []).length =
          (flushOne e id0).dimension + 1 ∧
        ((flushOne e id0).subforms.getD id []).Nodup ∧
        ∀ c ∈ (flushOne e id0).subforms.getD id [], c < r := by
      intro id hm
      obtain ⟨hr, hb, hslot, hnds, hcov⟩ := H id (List.mem_cons_of_mem _ hm)
      have hne : id ≠ id0 := fun hEq => h0rest (hEq ▸ hm)
      refine ⟨hr, ?_, ?_, hnds, hcov⟩
      · rw [show (flushOne e id0).weights.length = e.weights.length from fsp.2.2.1]
        exact hb
      · rw [hpw1 id hne]
        exact hslot
    have IH := ih (flushOne e id0) hndrest Hrest
    have hdelta : ∀ id ∈ rest, deltaRow (flushOne e id0) id = deltaRow e id := by
      intro id hm
      obtain ⟨hr, _, _, _, _⟩ := H id (List.mem_cons_of_mem _ hm)
      have hne : id ≠ id0 := fun hEq => h0rest (hEq ▸ hm)
      unfold deltaRow
      rw [show getRow (flushOne e id0).weights (flushOne e id0).dimension id =
            getRow e.weights e.dimension id from hrow1 id hr hne,
          show (flushOne e id0).previous_weights.getD id [] =
            e.previous_weights.getD id [] from hpw1 id hne]
      rfl
    have hsum : ∀ c, sumDeltas (flushOne e id0) rest c = sumDeltas e rest c :=
      fun c => sumDeltas_congr rest c rfl (fun _ _ => rfl) hdelta
    simp only [show (flushOne e id0).dimension = e.dimension from rfl] at IH
    rw [List.foldl_cons] at *
    refine ⟨?_, ?_, ?_, ?_, ?_⟩
    · intro c hcr
      have h1 := IH.1 c hcr
      rw [hsum c] at h1
      by_cases hc : c ∈ e.subforms.getD id0 []
      · rw [h1, fsp.1 c hc]
        simp only [sumDeltas, if_pos hc]
        exact vecAdd_assoc _ _ _
      · rw [h1, fsp.2.1 c hc (by have := hcov0; omega)]
        simp only [sumDeltas, if_neg hc]
    · intro j hrj hjl
      have hjne : j ≠ id0 := fun hEq => hjl (hEq ▸ List.mem_cons_self _ _)
      have hjrest : j ∉ rest := fun hm => hjl (List.mem_cons_of_mem _ hm)
      rw [IH.2.1 j hrj hjrest, hrow1 j hrj hjne]
    · exact IH.2.2.1.trans fsp.2.2.1
    · intro j hj
      have hjne : j ≠ id0 := fun hEq => hj (hEq ▸ List.mem_cons_self _ _)
      have hjrest : j ∉ rest := fun hm => hj (List.mem_cons_of_mem _ hm)
      rw [IH.2.2.2.1 j hjrest, hpw1 j hjne]
    · intro id hid
      rcases List.mem_cons.mp hid with hEq | hm
      · subst hEq
        rw [IH.2.2.2.1 id h0rest, fsp.2.2.2, getD_set_self hlt0,
          getD_set_self (by omega : e.dimension < (e.previous_weights.getD id []).length)]
      · exact IH.2.2.2.2 id hm

/-- C2: for every id in the active set at the time `update_weights` is called,
with `v` the id's current row and `snapshot` its cached snapshot, the flush
adds `(v − snapshot)/constituent_count` to each of the id's constituent rows
(a row constituent to several active ids receives each of their deltas), marks
the id's cache slot stale (flag 0), and afterwards the active set is empty.
The hypotheses are the reachable-state invariants: active ids are pairwise
distinct composed ids (at least the plain-row count `r`, in bounds, slot length
`dimension+1`) whose constituent lists are duplicate-free and below `r`. -/
theorem C2_update_weights (e : embedding) (r : ℕ)
    (hs : e.subform = true)
    (hnd : e.active_subforms.Nodup)
    (H : ∀ id ∈ e.active_subforms,
      r ≤ id ∧
      id * e.dimension + e.dimension ≤ e.weights.length ∧
      (e.previous_weights.getD id []).length = e.dimension + 1 ∧
      (e.subforms.getD id []).Nodup ∧
      ∀ c ∈ e.subforms.getD id [], c < r) :
    e.update_weights.active_subforms = [] ∧
    (∀ id ∈ e.active_subforms,
      (e.update_weights.previous_weights.getD id []).getD e.dimension 0 = 0) ∧
    (∀ c, c < r →
      getRow e.update_weights.weights e.dimension c =
        vecAdd (getRow e.weights e.dimension c) (sumDeltas e e.active_subforms c)) := by
  have hf := flush_fold r e.active_subforms e hnd H
  unfold embedding.update_weights
  rw [hs]
  exact ⟨rfl, fun id hid => hf.2.2.2.2 id hid, fun c hcr => hf.1 c hcr⟩

/-- `eMat` after materialising id 2 and externally overwriting its row with 10:
snapshot `5/2`, flag fresh, active set `[2]`. -/
def eFlush : embedding :=
  { dimension := 1, dictionary := [("aa", 0), ("bb", 1)], unknown_index := -1,
    subform := true, weights := [2, 3, 10], subforms := [[], [], [0, 1]],
    previous_weights := [[], [], [(5 : ℚ)/2, 1]], active_subforms := [2],
    decomposed_forms := [("x", 2)] }

/-- Witness for `C2_update_weights`: flushing `eFlush` empties the active set,
zeroes the flag of id 2, and adds the delta `(10 − 5/2)/2 = 15/4` to
constituent row 0. -/
theorem C2_update_weights_witness :
    eFlush.update_weights.active_subforms = [] ∧
    (eFlush.update_weights.previous_weights.getD 2 []).getD eFlush.dimension 0 = 0 ∧
    getRow eFlush.update_weights.weights eFlush.dimension 0 =
      vecAdd (getRow eFlush.weights eFlush.dimension 0)
        (sumDeltas eFlush eFlush.active_subforms 0) ∧
    sumDeltas eFlush eFlush.active_subforms 0 = [(15 : ℚ)/4] := by
  have h := C2_update_weights eFlush 2 rfl (by decide) (by decide)
  refine ⟨h.1, h.2.1 2 (by decide), h.2.2 0 (by decide), ?_⟩
  norm_num [sumDeltas, deltaRow, vecScale, vecSub, vecAdd, getRow, zeros, eFlush]

/-! ### C5 -/

theorem lookup_append {β : Type} (l1 l2 : List (String × β)) (a : String) :
    List.lookup a (l1 ++ l2) =
      match List.lookup a l1 with
      | some v => some v
      | none => List.lookup a l2 := by
  induction l1 with
  | nil => simp
  | cons p t ih =>
    obtain ⟨k, x⟩ := p
    cases hbeq : (a == k) <;> simp [List.lookup, hbeq, ih]

theorem lookup_foldl_emplace_of_some :
    ∀ (ws : List String) (acc : List (String × ℕ)) (w : String) (v : ℕ),
      List.lookup w acc = some v →
      List.lookup w (ws.foldl emplaceDict acc) = some v := by
  intro ws
  induction ws with
  | nil => intro acc w v h; exact h
  | cons w2 rest ih =>
    intro acc w v h
    rw [List.foldl_cons]
    apply ih
    unfold emplaceDict
    cases hl : List.lookup w2 acc with
    | some _ => exact h
    | none =>
      rw [lookup_append]
      rw [h]

/-- `emplace`-folding a duplicate-free word list over a map where none of the
words occur yet appends one entry per word, ids continuing from the map size. -/
theorem emplace_fold_spec :
    ∀ (ws : List String) (acc : List (String × ℕ)),
      ws.Nodup → (∀ w ∈ ws, List.lookup w acc = none) →
      ((ws.foldl emplaceDict acc).length = acc.length + ws.length ∧
       ∀ i (h : i < ws.length),
         List.lookup (ws.get ⟨i, h⟩) (ws.foldl emplaceDict acc) =
           some (acc.length + i)) := by
  intro ws
  induction ws with
  | nil => intro acc _ _; exact ⟨rfl, fun i h => absurd h (by simp)⟩
  | cons w rest ih =>
    intro acc hnd hnone
    obtain ⟨hw, hndr⟩ := List.nodup_cons.mp hnd
    have hacc : List.lookup w acc = none := hnone w (List.mem_cons_self _ _)
    have hstep : emplaceDict acc w = acc ++ [(w, acc.length)] := by
      unfold emplaceDict
      rw [hacc]
    have hnone2 : ∀ w2 ∈ rest, List.lookup w2 (acc ++ [(w, acc.length)]) = none := by
      intro w2 hm
      rw [lookup_append, hnone w2 (List.mem_cons_of_mem _ hm)]
      have : (w2 == w) = false := by
        simp only [beq_eq_false_iff_ne, ne_eq]
        intro hEq
        exact hw (hEq ▸ hm)
      simp [List.lookup, this]
    have hrec := ih (acc ++ [(w, acc.length)]) hndr hnone2
    rw [List.foldl_cons, hstep]
    constructor
    · rw [hrec.1]
      simp
      omega
    · intro i h
      cases i with
      | zero =>
        have hself : List.lookup w (acc ++ [(w, acc.length)]) = some acc.length :=
          lookup_append_of_none hacc
        have := lookup_foldl_emplace_of_some rest (acc ++ [(w, acc.length)]) w
          acc.length hself
        simpa using this
      | succ j =>
        have := hrec.2 j (by simpa using h)
        simp only [List.length_append, List.length_singleton] at this
        rw [show (rest.get ⟨j, by simpa using h⟩) =
          ((w :: rest).get ⟨j + 1, h⟩) from rfl] at this
        rw [this]
        congr 1
        omega

theorem readWords_spec :
    ∀ (ws : List String) (acc : List (String × ℕ)) (ts : List Tok),
      readWords ws.length acc (ws.map Tok.str ++ ts) =
        some (ws.foldl emplaceDict acc, ts) := by
  intro ws
  induction ws with
  | nil => intro acc ts; rfl
  | cons w rest ih =>
    intro acc ts
    rw [show (w :: rest).length = rest.length + 1 from rfl]
    simp only [List.map_cons, List.cons_append, readWords, List.foldl_cons]
    exact ih (emplaceDict acc w) ts

theorem readFloats_spec :
    ∀ (fs : List ℚ) (ts : List Tok),
      readFloats fs.length (fs.map Tok.flt ++ ts) = some (fs, ts) := by
  intro fs
  induction fs with
  | nil => intro ts; rfl
  | cons q rest ih =>
    intro ts
    rw [show (q :: rest).length = rest.length + 1 from rfl]
    simp only [List.map_cons, List.cons_append, readFloats]
    show (match readFloats rest.length (List.map Tok.flt rest ++ ts) with
      | some (qs, ts2) => some (q :: qs, ts2)
      | none => none) = some (q :: rest, ts)
    rw [ih ts]

/-- A stream shaped exactly as C5 demands for dimension 1, two words, no
unknown row: 2 words, then `1 * (2 + 0) = 2` floats — but the two words are
equal. -/
def tsDup : List Tok :=
  [Tok.u4 1, Tok.u4 2, Tok.str "a", Tok.str "a", Tok.u1 0, Tok.u1 0,
   Tok.flt 5, Tok.flt 7]

/-- C5 is false as stated for duplicate words: on `tsDup` the two words are
not "assigned ids 0..N-1 in read order" (the dictionary keeps a single entry
`("a", 0)`), and only `dimension * (distinct + has_unknown) = 1` float is
consumed, not `dimension * (N + has_unknown) = 2` — `Tok.flt 7` is left over. -/
theorem C5_counterexample :
    embedding.load tsDup =
      some ({ dimension := 1, dictionary := [("a", 0)], unknown_index := -1,
              subform := false, weights := [5], subforms := [[]],
              previous_weights := [[]], active_subforms := [],
              decomposed_forms := [] }, [Tok.flt 7]) ∧
    ([Tok.flt 7] : List Tok) ≠ [] ∧
    ([("a", 0)] : List (String × ℕ)).length ≠ 2 := by
  refine ⟨by decide, by decide, by decide⟩

/-- C5 (amended): for a positive dimension and pairwise-distinct words, `load`
consumes the stream in exactly the claimed order — 4-byte dimension, 4-byte
size `N`, `N` words assigned ids `0..N-1` in read order, the has-unknown and
subform bytes, then exactly `dimension * (N + has_unknown)` floats forming the
weight matrix — leaving any suffix untouched, and the per-id subform lists and
cache slots are sized to the number of loaded rows but all empty.  (With
duplicate words, `emplace` keeps the first id and the float block shrinks to
`dimension * (distinct + has_unknown)`; a zero dimension makes the C++ row
count `weights.size()/dimension` a division by zero.) -/
theorem C5_load_format (d : ℕ) (hd : 0 < d) (ws : List String) (hnd : ws.Nodup)
    (hu sf : ℕ) (fs : List ℚ) (rest : List Tok)
    (hf : fs.length = d * (ws.length + (if hu ≠ 0 then 1 else 0))) :
    embedding.load
        (Tok.u4 d :: Tok.u4 ws.length :: (ws.map Tok.str ++
          (Tok.u1 hu :: Tok.u1 sf :: (fs.map Tok.flt ++ rest)))) =
      some ({ dimension := d,
              dictionary := ws.foldl emplaceDict [],
              unknown_index := if hu ≠ 0 then (ws.length : ℤ) else -1,
              subform := sf != 0,
              weights := fs,
              subforms :=
                List.replicate (ws.length + (if hu ≠ 0 then 1 else 0)) [],
              previous_weights :=
                List.replicate (ws.length + (if hu ≠ 0 then 1 else 0)) [],
              active_subforms := [], decomposed_forms := [] }, rest) ∧
    (ws.foldl emplaceDict []).length = ws.length ∧
    (∀ i (h : i < ws.length),
      List.lookup (ws.get ⟨i, h⟩) (ws.foldl emplaceDict []) = some i) := by
  have espec := emplace_fold_spec ws [] hnd (fun w _ => rfl)
  have hlen : (ws.foldl emplaceDict []).length = ws.length := by
    simpa using espec.1
  refine ⟨?_, hlen, fun i h => by simpa using espec.2 i h⟩
  have hiu : (if (0 : ℤ) ≤ (if hu ≠ 0 then ((ws.length : ℕ) : ℤ)
        else -1) then 1 else 0) = ((if hu ≠ 0 then 1 else 0) : ℕ) := by
    by_cases hhu : hu = 0 <;> simp [hhu]
  simp only [embedding.load]
  rw [readWords_spec]
  simp only [hlen, hiu]
  rw [show d * (ws.length + if hu ≠ 0 then 1 else 0) = fs.length from hf.symm,
    readFloats_spec]
  simp only [hf, Nat.mul_div_cancel_left _ hd]

/-- Witness for `C5_load_format`: dimension 1, words "b","c", an unknown row,
subform on, floats `[1, 2, 3]` — the loaded state assigns ids 0 and 1 in read
order and its auxiliary structures are three empty slots. -/
theorem C5_load_format_witness :
    embedding.load
        (Tok.u4 1 :: Tok.u4 (["b", "c"] : List String).length ::
          ((["b", "c"] : List String).map Tok.str ++
            (Tok.u1 1 :: Tok.u1 1 :: (([1, 2, 3] : List ℚ).map Tok.flt ++ [])))) =
      some ({ dimension := 1,
              dictionary := (["b", "c"] : List String).foldl emplaceDict [],
              unknown_index := if (1 : ℕ) ≠ 0
                then (((["b", "c"] : List String).length : ℕ) : ℤ) else -1,
              subform := (1 : ℕ) != 0, weights := [1, 2, 3],
              subforms := List.replicate ((["b", "c"] : List String).length +
                (if (1 : ℕ) ≠ 0 then 1 else 0)) [],
              previous_weights := List.replicate ((["b", "c"] : List String).length +
                (if (1 : ℕ) ≠ 0 then 1 else 0)) [],
              active_subforms := [], decomposed_forms := [] }, []) ∧
    (∀ i (h : i < (["b", "c"] : List String).length),
      List.lookup ((["b", "c"] : List String).get ⟨i, h⟩)
        ((["b", "c"] : List String).foldl emplaceDict []) = some i) :=
  ⟨(C5_load_format 1 (by decide) ["b", "c"] (by decide) 1 1 [1, 2, 3] []
      (by decide)).1,
   (C5_load_format 1 (by decide) ["b", "c"] (by decide) 1 1 [1, 2, 3] []
      (by decide)).2.2⟩

/-! ### Reachable-state invariant (C8, C10) -/

theorem mem_of_lookup_eq_some {β : Type} :
    ∀ {l : List (String × β)} {a : String} {b : β},
      List.lookup a l = some b → (a, b) ∈ l := by
  intro l
  induction l with
  | nil => intro a b h; simp at h
  | cons p t ih =>
    intro a b h
    obtain ⟨k, x⟩ := p
    cases hbeq : (a == k) with
    | true =>
      simp only [List.lookup, hbeq] at h
      cases h
      exact (beq_iff_eq.mp hbeq) ▸ List.mem_cons_self _ _
    | false =>
      simp only [List.lookup, hbeq] at h
      exact List.mem_cons_of_mem _ (ih h)

theorem getD_append_lt {α : Type} {l l2 : List α} {c : ℕ} {x : α} (h : c < l.length) :
    (l ++ l2).getD c x = l.getD c x := by
  rw [List.getD_eq_getElem?_getD, List.getD_eq_getElem?_getD, List.getElem?_append,
    if_pos h]

theorem getD_append_singleton_self {α : Type} {l : List α} {a x : α} :
    (l ++ [a]).getD l.length x = a := by
  rw [List.getD_eq_getElem?_getD, List.getElem?_append_right (le_refl _)]
  simp

theorem getD_append_singleton_gt {α : Type} {l : List α} {a x : α} {c : ℕ}
    (h : l.length < c) : (l ++ [a]).getD c x = x := by
  rw [List.getD_eq_getElem?_getD, List.getElem?_eq_none (by simp; omega)]
  rfl

theorem chain'_lt_of_le_ne :
    ∀ (l : List ℕ), l.Chain' (· ≤ ·) → l.Chain' (· ≠ ·) → l.Chain' (· < ·) := by
  intro l
  induction l with
  | nil => intro _ _; exact List.chain'_nil
  | cons a t ih =>
    intro hle hne
    cases t with
    | nil => simp
    | cons b t2 =>
      obtain ⟨h1, h2⟩ := List.chain'_cons.mp hle
      obtain ⟨h3, h4⟩ := List.chain'_cons.mp hne
      exact List.chain'_cons.mpr ⟨lt_of_le_of_ne h1 h3, ih h2 h4⟩

/-- The constituent list built by lines 57–58 is strictly ascending. -/
theorem chain'_sortUnique (l : List ℕ) : (sortUnique l).Chain' (· < ·) := by
  have hs : (List.insertionSort (· ≤ ·) l).Pairwise (· ≤ ·) :=
    List.sorted_insertionSort (· ≤ ·) l
  have hp : ((List.insertionSort (· ≤ ·) l).destutter (· ≠ ·)).Pairwise (· ≤ ·) :=
    hs.sublist (List.destutter_sublist _ _)
  have hne : ((List.insertionSort (· ≤ ·) l).destutter (· ≠ ·)).Chain' (· ≠ ·) :=
    List.destutter_is_chain' _ _
  exact chain'_lt_of_le_ne _ (List.chain'_iff_pairwise.mpr hp) hne

theorem sortUnique_ne_nil {l : List ℕ} (h : l ≠ []) : sortUnique l ≠ [] := by
  intro hcon
  rw [sortUnique, List.destutter_eq_nil] at hcon
  have := (List.perm_insertionSort (· ≤ ·) l).length_eq
  rw [hcon] at this
  exact h (List.length_eq_zero.mp this.symm)

theorem mem_sortUnique {l : List ℕ} {c : ℕ} (h : c ∈ sortUnique l) : c ∈ l := by
  have h1 : c ∈ List.insertionSort (· ≤ ·) l :=
    (List.destutter_sublist _ _).mem h
  exact (List.perm_insertionSort (· ≤ ·) l).mem_iff.mp h1

/-- Every id collected by the n-gram loops is a value stored in the
dictionary. -/
theorem mem_collectSubforms {dict : List (String × ℕ)} {cs : List Char} {c : ℕ}
    (h : c ∈ collectSubforms dict cs) : ∃ key, (key, c) ∈ dict := by
  rw [collectSubforms] at h
  obtain ⟨sub, hsub, hc⟩ := List.mem_flatten.mp h
  obtain ⟨i, _, hEq⟩ := List.mem_map.mp hsub
  subst hEq
  rw [ngramHits] at hc
  obtain ⟨L, _, hL⟩ := List.mem_filterMap.mp hc
  by_cases hcond : i + L ≤ cs.length
  · rw [if_pos hcond] at hL
    exact ⟨_, mem_of_lookup_eq_some hL⟩
  · rw [if_neg hcond] at hL
    cases hL

/-- The reachable-state invariant of the component relative to the number `r`
of loaded (plain dictionary + unknown) rows: dictionary ids and the unknown id
are below `r`; the per-row structures cover the loaded rows and agree in
length; loaded rows have empty cache slots and empty subform lists (plain ids
never populate them); every stored constituent id is below `r`; and every
composed row (non-empty cache slot) has a strictly ascending, non-empty
constituent list. -/
structure EmbInv (r : ℕ) (e : embedding) : Prop where
  dict_lt : ∀ p ∈ e.dictionary, p.2 < r
  unk_lt : 0 ≤ e.unknown_index → e.unknown_index < (r : ℤ)
  len_ge : r ≤ e.subforms.length
  len_eq : e.subforms.length = e.previous_weights.length
  plain_slot : ∀ id, id < r → e.previous_weights.getD id [] = []
  plain_subs : ∀ id, id < r → e.subforms.getD id [] = []
  consts_lt : ∀ id, ∀ c ∈ e.subforms.getD id [], c < r
  sorted : ∀ id, e.previous_weights.getD id [] ≠ [] →
    (e.subforms.getD id []).Chain' (· < ·) ∧ e.subforms.getD id [] ≠ []

theorem EmbInv_lookup (r : ℕ) (U : UnicodeModel) (e : embedding) (word : String)
    (h : EmbInv r e) : EmbInv r (embedding.lookup_word U e word).2 := by
  by_cases hs : e.subform = true
  · cases hdf : List.lookup word e.decomposed_forms with
    | some v => rw [lookup_word_hit U e word v hs hdf]; exact h
    | none =>
      rw [lookup_word_miss U e word hs hdf]
      split
      · exact { h with }
      · rename_i hcond
        set hits := collectSubforms e.dictionary ('<' :: word.toList ++ ['>']) with hhits
        set base := if hits = [] then [e.unknown_index.toNat] else hits with hbase
        have hbase_lt : ∀ c ∈ base, c < r := by
          intro c hc
          rw [hbase] at hc
          split at hc
          · rename_i hemp
            have hunk : 0 ≤ e.unknown_index := by
              by_contra hneg
              push_neg at hneg
              exact hcond ⟨hemp, hneg⟩
            rcases List.mem_singleton.mp hc with rfl
            have := h.unk_lt hunk
            omega
          · obtain ⟨key, hkey⟩ := mem_collectSubforms (hhits ▸ hc)
            exact h.dict_lt _ hkey
        have hbase_ne : base ≠ [] := by
          rw [hbase]
          split
          · simp
          · assumption
        refine
          { dict_lt := h.dict_lt
            unk_lt := h.unk_lt
            len_ge := by
              have := h.len_ge
              simp only [List.length_append, List.length_singleton]
              omega
            len_eq := by
              simp only [List.length_append, List.length_singleton, h.len_eq]
            plain_slot := fun id hid => ?_
            plain_subs := fun id hid => ?_
            consts_lt := fun id c hc => ?_
            sorted := fun id hne => ?_ }
        · have : id < e.previous_weights.length := by
            have := h.len_ge
            have := h.len_eq
            omega
          rw [getD_append_lt this]
          exact h.plain_slot id hid
        · have : id < e.subforms.length := by
            have := h.len_ge
            omega
          rw [getD_append_lt this]
          exact h.plain_subs id hid
        · rcases Nat.lt_trichotomy id e.subforms.length with hlt | hEq | hgt
          · rw [getD_append_lt hlt] at hc
            exact h.consts_lt id c hc
          · subst hEq
            rw [getD_append_singleton_self] at hc
            exact hbase_lt c (mem_sortUnique hc)
          · rw [getD_append_singleton_gt hgt] at hc
            cases hc
        · rcases Nat.lt_trichotomy id e.previous_weights.length with hlt | hEq | hgt
          · rw [getD_append_lt hlt] at hne
            rw [getD_append_lt (by rw [h.len_eq]; exact hlt)]
            exact h.sorted id hne
          · have hid2 : id = e.subforms.length := by rw [h.len_eq]; exact hEq
            rw [hid2, getD_append_singleton_self]
            exact ⟨chain'_sortUnique base, sortUnique_ne_nil hbase_ne⟩
          · rw [getD_append_singleton_gt hgt] at hne
            exact absurd rfl hne
  · have hs2 : e.subform = false := by
      cases hsub : e.subform
      · rfl
      · exact absurd hsub hs
    rw [lookup_word_nonsubform U e word hs2]
    exact h

theorem EmbInv_weight (r : ℕ) (e : embedding) (id : ℤ) (h : EmbInv r e) :
    EmbInv r (e.weight id).2 := by
  unfold embedding.weight
  by_cases h0 : id < 0
  · simp only [if_pos h0]
    exact h
  · simp only [if_neg h0]
    by_cases h1 : e.weights.length ≤ id.toNat * e.dimension
    · simp only [if_pos h1]
      exact h
    · simp only [if_neg h1]
      by_cases h2 : e.subform = true ∧ (e.previous_weights.getD id.toNat []) ≠ [] ∧
          (e.previous_weights.getD id.toNat []).getD e.dimension 0 = 0
      · simp only [if_pos h2]
        have hir : ¬ id.toNat < r := fun hlt => h2.2.1 (h.plain_slot id.toNat hlt)
        refine
          { dict_lt := h.dict_lt
            unk_lt := h.unk_lt
            len_ge := h.len_ge
            len_eq := by
              show e.subforms.length = (e.previous_weights.set _ _).length
              rw [List.length_set]
              exact h.len_eq
            plain_slot := fun c hc => ?_
            plain_subs := h.plain_subs
            consts_lt := h.consts_lt
            sorted := fun id2 hne => ?_ }
        · exact (getD_set_ne (fun hEq => hir (by rw [hEq]; exact hc))).trans
            (h.plain_slot c hc)
        · by_cases hEq : id2 = id.toNat
          · subst hEq
            exact h.sorted _ h2.2.1
          · rw [getD_set_ne (fun hE => hEq hE.symm)] at hne
            exact h.sorted id2 hne
      · simp only [if_neg h2]
        exact h

theorem EmbInv_flushOne (r : ℕ) (e : embedding) (id : ℕ) (h : EmbInv r e) :
    EmbInv r (flushOne e id) := by
  simp only [flushOne]
  refine
    { dict_lt := h.dict_lt
      unk_lt := h.unk_lt
      len_ge := h.len_ge
      len_eq := by rw [List.length_set]; exact h.len_eq
      plain_subs := h.plain_subs
      consts_lt := h.consts_lt
      plain_slot := fun c hc => ?_
      sorted := fun id2 hne => ?_ }
  · by_cases hEq : id = c
    · subst hEq
      rw [List.getD_eq_getElem?_getD, List.getElem?_set]
      simp only [if_pos rfl, h.plain_slot id hc]
      rcases Nat.lt_or_ge id e.previous_weights.length with hlt | hge
      · rw [if_pos hlt]
        rfl
      · rw [if_neg (Nat.not_lt.mpr hge)]
        rfl
    · exact (getD_set_ne hEq).trans (h.plain_slot c hc)
  · by_cases hEq : id2 = id
    · subst hEq
      have hne2 : (e.previous_weights.set id2
          ((e.previous_weights.getD id2 []).set e.dimension 0)).getD id2 [] ≠ [] := hne
      have hold : e.previous_weights.getD id2 [] ≠ [] := by
        intro hemp
        apply hne2
        rw [hemp, List.getD_eq_getElem?_getD, List.getElem?_set]
        simp only [if_pos rfl]
        rcases Nat.lt_or_ge id2 e.previous_weights.length with hlt | hge
        · rw [if_pos hlt]
          rfl
        · rw [if_neg (Nat.not_lt.mpr hge)]
          rfl
      exact h.sorted id2 hold
    · rw [getD_set_ne (fun hE => hEq hE.symm)] at hne
      exact h.sorted id2 hne

theorem EmbInv_foldl_flushOne (r : ℕ) :
    ∀ (l : List ℕ) (e : embedding), EmbInv r e → EmbInv r (l.foldl flushOne e) := by
  intro l
  induction l with
  | nil => intro e h; exact h
  | cons a t ih =>
    intro e h
    rw [List.foldl_cons]
    exact ih _ (EmbInv_flushOne r e a h)

theorem EmbInv_update (r : ℕ) (e : embedding) (h : EmbInv r e) :
    EmbInv r e.update_weights := by
  unfold embedding.update_weights
  split
  · have h3 := EmbInv_foldl_flushOne r e.active_subforms e h
    exact { h3 with }
  · exact h

/-- The invariant is preserved by every operation of the public surface. -/
theorem EmbInv_runOp (r : ℕ) (U : UnicodeModel) (e : embedding) (op : Op)
    (h : EmbInv r e) : EmbInv r (runOp U e op) := by
  cases op with
  | look w => exact EmbInv_lookup r U e w h
  | getw id => exact EmbInv_weight r e id h
  | flush => exact EmbInv_update r e h

theorem EmbInv_runOps (r : ℕ) (U : UnicodeModel) :
    ∀ (ops : List Op) (e : embedding), EmbInv r e → EmbInv r (runOps U e ops) := by
  intro ops
  induction ops with
  | nil => intro e h; exact h
  | cons op rest ih =>
    intro e h
    rw [runOps, List.foldl_cons]
    exact ih _ (EmbInv_runOp r U e op h)

theorem getD_replicate_nil {α : Type} (k i : ℕ) :
    (List.replicate k ([] : List α)).getD i [] = [] := by
  rw [List.getD_eq_getElem?_getD, List.getElem?_replicate]
  split <;> rfl

theorem emplace_fold_values :
    ∀ (ws : List String) (acc : List (String × ℕ)),
      (∀ p ∈ acc, p.2 < acc.length) →
      ∀ p ∈ ws.foldl emplaceDict acc, p.2 < (ws.foldl emplaceDict acc).length := by
  intro ws
  induction ws with
  | nil => intro acc h; exact h
  | cons w rest ih =>
    intro acc h
    rw [List.foldl_cons]
    apply ih
    unfold emplaceDict
    cases hl : List.lookup w acc with
    | some _ => exact h
    | none =>
      intro p hp
      simp only [List.length_append, List.length_singleton]
      rcases List.mem_append.mp hp with h1 | h2
      · have := h p h1
        omega
      · have hp2 : p = (w, acc.length) := List.mem_singleton.mp h2
        rw [hp2]
        omega

/-- The state `load` produces from a canonical stream (any words, any flags). -/
def loadedState (d : ℕ) (ws : List String) (hu sf : ℕ) (fs : List ℚ) : embedding :=
  { dimension := d, dictionary := ws.foldl emplaceDict [],
    unknown_index := if hu ≠ 0 then ((ws.foldl emplaceDict []).length : ℤ) else -1,
    subform := sf != 0, weights := fs,
    subforms := List.replicate (fs.length / d) [],
    previous_weights := List.replicate (fs.length / d) [],
    active_subforms := [], decomposed_forms := [] }

theorem load_stream_eq (d : ℕ) (ws : List String) (hu sf : ℕ) (fs : List ℚ)
    (rest : List Tok)
    (hf : fs.length =
      d * ((ws.foldl emplaceDict []).length + (if hu ≠ 0 then 1 else 0))) :
    embedding.load (Tok.u4 d :: Tok.u4 ws.length :: (ws.map Tok.str ++
        (Tok.u1 hu :: Tok.u1 sf :: (fs.map Tok.flt ++ rest)))) =
      some (loadedState d ws hu sf fs, rest) := by
  simp only [embedding.load]
  rw [readWords_spec]
  have hiu : (if (0 : ℤ) ≤ (if hu ≠ 0 then (((ws.foldl emplaceDict []).length : ℕ) : ℤ)
        else -1) then 1 else 0) = ((if hu ≠ 0 then 1 else 0) : ℕ) := by
    by_cases hhu : hu = 0 <;> simp [hhu]
  simp only [hiu]
  rw [show d * ((ws.foldl emplaceDict []).length + if hu ≠ 0 then 1 else 0) = fs.length
    from hf.symm, readFloats_spec]
  rfl

/-- A freshly loaded state satisfies the invariant, relative to its number of
loaded rows. -/
theorem EmbInv_loadedState (d : ℕ) (hd : 0 < d) (ws : List String) (hu sf : ℕ)
    (fs : List ℚ)
    (hf : fs.length =
      d * ((ws.foldl emplaceDict []).length + (if hu ≠ 0 then 1 else 0))) :
    EmbInv ((ws.foldl emplaceDict []).length + (if hu ≠ 0 then 1 else 0))
      (loadedState d ws hu sf fs) := by
  have hrows : fs.length / d =
      (ws.foldl emplaceDict []).length + (if hu ≠ 0 then 1 else 0) := by
    rw [hf, Nat.mul_div_cancel_left _ hd]
  refine
    { dict_lt := fun p hp => ?_
      unk_lt := fun hpos => ?_
      len_ge := ?_
      len_eq := ?_
      plain_slot := fun id _ => getD_replicate_nil _ _
      plain_subs := fun id _ => getD_replicate_nil _ _
      consts_lt := fun id c hc => ?_
      sorted := fun id hne => absurd (getD_replicate_nil _ _) hne }
  · have := emplace_fold_values ws [] (by intro p hp; simp at hp) p hp
    omega
  · simp only [loadedState] at hpos ⊢
    by_cases hhu : hu = 0
    · rw [if_neg (by omega)] at hpos
      omega
    · rw [if_pos hhu]
      push_cast
      have : (0 : ℕ) < if hu ≠ 0 then 1 else 0 := by rw [if_pos hhu]; omega
      omega
  · simp only [loadedState, List.length_replicate, hrows]
    omega
  · simp only [loadedState, List.length_replicate]
  · rw [show (loadedState d ws hu sf fs).subforms =
      List.replicate (fs.length / d) ([] : List ℕ) from rfl, getD_replicate_nil] at hc
    cases hc

/-- C8: starting from any loaded state (canonical stream, positive dimension)
and running any sequence of operations, every composed id — every row with a
non-empty cache slot, exactly the rows created by subform-mode lookups — has a
strictly ascending (hence duplicate-free) non-empty constituent list.  No
operation modifies an existing list: lookups only append new lists, built by
sort-then-unique with the unknown-id fallback. -/
theorem C8_sorted_subform_lists (d : ℕ) (hd : 0 < d) (ws : List String)
    (hu sf : ℕ) (fs : List ℚ) (rest : List Tok) (e : embedding)
    (U : UnicodeModel) (ops : List Op)
    (hf : fs.length =
      d * ((ws.foldl emplaceDict []).length + (if hu ≠ 0 then 1 else 0)))
    (hload : embedding.load (Tok.u4 d :: Tok.u4 ws.length :: (ws.map Tok.str ++
        (Tok.u1 hu :: Tok.u1 sf :: (fs.map Tok.flt ++ rest)))) = some (e, rest)) :
    ∀ id, (runOps U e ops).previous_weights.getD id [] ≠ [] →
      ((runOps U e ops).subforms.getD id []).Chain' (· < ·) ∧
        (runOps U e ops).subforms.getD id [] ≠ [] := by
  have hE := load_stream_eq d ws hu sf fs rest hf
  rw [hload] at hE
  have he : e = loadedState d ws hu sf fs :=
    congrArg Prod.fst (Option.some.inj hE)
  subst he
  have hinv := EmbInv_runOps _ U ops _ (EmbInv_loadedState d hd ws hu sf fs hf)
  exact fun id hne => hinv.sorted id hne

/-- Witness for `C8_sorted_subform_lists`: loading dimension 1, dictionary
{"ca" ↦ 0}, subform on, then looking up "cats" creates composed id 1 whose
constituent list is `[0]` — sorted, duplicate-free and non-empty. -/
theorem C8_sorted_subform_lists_witness :
    (runOps asciiUnicode (loadedState 1 ["ca"] 0 1 [1])
        [Op.look "cats"]).previous_weights.getD 1 [] ≠ [] ∧
    ((runOps asciiUnicode (loadedState 1 ["ca"] 0 1 [1])
        [Op.look "cats"]).subforms.getD 1 []).Chain' (· < ·) ∧
    (runOps asciiUnicode (loadedState 1 ["ca"] 0 1 [1])
        [Op.look "cats"]).subforms.getD 1 [] = [0] := by
  have h := C8_sorted_subform_lists 1 (by decide) ["ca"] 0 1 [1] []
    (loadedState 1 ["ca"] 0 1 [1]) asciiUnicode [Op.look "cats"] (by decide) (by decide)
  exact ⟨by decide, (h 1 (by decide)).1, by decide⟩

/-- C10: starting from any loaded state and running any sequence of
operations, every constituent id stored in any subform list refers to a loaded
row — its index is below `dictionary size + has_unknown` — and its own cache
slot is empty, i.e. a constituent is never itself a composed id, so
materialising a composed row reads only loaded rows and never recurses. -/
theorem C10_constituents_are_loaded_rows (d : ℕ) (hd : 0 < d) (ws : List String)
    (hu sf : ℕ) (fs : List ℚ) (rest : List Tok) (e : embedding)
    (U : UnicodeModel) (ops : List Op)
    (hf : fs.length =
      d * ((ws.foldl emplaceDict []).length + (if hu ≠ 0 then 1 else 0)))
    (hload : embedding.load (Tok.u4 d :: Tok.u4 ws.length :: (ws.map Tok.str ++
        (Tok.u1 hu :: Tok.u1 sf :: (fs.map Tok.flt ++ rest)))) = some (e, rest)) :
    ∀ id, ∀ c ∈ (runOps U e ops).subforms.getD id [],
      c < (ws.foldl emplaceDict []).length + (if hu ≠ 0 then 1 else 0) ∧
      (runOps U e ops).previous_weights.getD c [] = [] := by
  have hE := load_stream_eq d ws hu sf fs rest hf
  rw [hload] at hE
  have he : e = loadedState d ws hu sf fs :=
    congrArg Prod.fst (Option.some.inj hE)
  subst he
  have hinv := EmbInv_runOps _ U ops _ (EmbInv_loadedState d hd ws hu sf fs hf)
  exact fun id c hc =>
    ⟨hinv.consts_lt id c hc, hinv.plain_slot c (hinv.consts_lt id c hc)⟩

/-- Witness for `C10_constituents_are_loaded_rows`: after the same load and a
lookup of "cats", the sole constituent 0 of composed id 1 is a loaded row
(`0 < 1`) and is itself not composed (empty cache slot). -/
theorem C10_constituents_are_loaded_rows_witness :
    0 ∈ (runOps asciiUnicode (loadedState 1 ["ca"] 0 1 [1])
        [Op.look "cats"]).subforms.getD 1 [] ∧
    0 < (["ca"].foldl emplaceDict []).length + (if (0 : ℕ) ≠ 0 then 1 else 0) ∧
    (runOps asciiUnicode (loadedState 1 ["ca"] 0 1 [1])
        [Op.look "cats"]).previous_weights.getD 0 [] = [] := by
  have h := C10_constituents_are_loaded_rows 1 (by decide) ["ca"] 0 1 [1] []
    (loadedState 1 ["ca"] 0 1 [1]) asciiUnicode [Op.look "cats"] (by decide) (by decide)
  exact ⟨by decide, (h 1 0 (by decide)).1, (h 1 0 (by decide)).2⟩
